import Mathlib

/-!
Verification of the cosa document-modeling layer (immutable model instances,
change tracking, optimistic-concurrency persistence, session/transaction
coordination) against its natural-language specification.

The JavaScript source is embedded shallowly:

* plain JSON-like data becomes the `JsValue` mutual inductive;
* JS reference identity (needed by `Immutable.mutate` and by the model
  methods `is`/`equals`, which begin with a `this === obj` test) is made
  explicit, either as a store of values addressed by natural numbers
  (`Store`) or as a `ref` field on the embedded instance record;
* stateful lifecycle code becomes functions that also return the trace of
  database commands issued, the queue contents pushed, or the hook events
  fired, so that ordering and "exactly one write" properties are statable;
* the opaque content-hash (the npm `etag` function) is an arbitrary
  parameter `etagFn : String → String`; what the code controls is the
  string handed to it, which the embedding computes exactly as the source
  does (`etag(JSON.stringify(obj))`).
-/

namespace Cosa

/-! ## JSON-like values

`JsValue` models the plain data wrapped by the Immutable core: null,
booleans, numbers (integers suffice for the claims), strings, arrays and
keyed objects.  Arrays and field lists are separate mutual inductives so
that all functions below are structural recursions that reduce
definitionally. -/

mutual
inductive JsValue where
  | vnull
  | vbool (b : Bool)
  | vnum (n : Int)
  | vstr (s : String)
  | varr (elems : JsArr)
  | vobj (fields : JsFields)
deriving DecidableEq

inductive JsArr where
  | nil
  | cons (head : JsValue) (tail : JsArr)
deriving DecidableEq

inductive JsFields where
  | fnil
  | fcons (key : String) (val : JsValue) (tail : JsFields)
deriving DecidableEq
end

/-- Build a field list from a Lean list of key/value pairs (literal helper). -/
def fieldsOf : List (String × JsValue) → JsFields
  | [] => .fnil
  | (k, v) :: t => .fcons k v (fieldsOf t)

/-! Deep clone, as performed by the `clone` npm package used by
`Immutable.create` (default `clone: true`) and by `mutate`.  A deep clone
copies every node, so on pure values it is the structural identity; the
fresh identity of the copy is modeled separately by store allocation. -/

mutual
def cloneV : JsValue → JsValue
  | .vnull => .vnull
  | .vbool b => .vbool b
  | .vnum n => .vnum n
  | .vstr s => .vstr s
  | .varr xs => .varr (cloneA xs)
  | .vobj fs => .vobj (cloneF fs)

def cloneA : JsArr → JsArr
  | .nil => .nil
  | .cons v t => .cons (cloneV v) (cloneA t)

def cloneF : JsFields → JsFields
  | .fnil => .fnil
  | .fcons k v t => .fcons k (cloneV v) (cloneF t)
end

/-! `JSON.stringify` on the embedded values: object keys in insertion
order, no whitespace, standard literals.  (String escaping is restricted
to quote and backslash; the documents in the claims contain neither.) -/

def jsEscapeChar (c : Char) : String :=
  if c = '"' then "\\\"" else if c = '\\' then "\\\\" else String.singleton c

def jsQuote (s : String) : String :=
  "\"" ++ String.join (s.data.map jsEscapeChar) ++ "\""

mutual
def jsonStringify : JsValue → String
  | .vnull => "null"
  | .vbool b => if b then "true" else "false"
  | .vnum n => toString n
  | .vstr s => jsQuote s
  | .varr xs => "[" ++ stringifyArr xs ++ "]"
  | .vobj fs => "\x7b" ++ stringifyFields fs ++ "\x7d"

def stringifyArr : JsArr → String
  | .nil => ""
  | .cons v .nil => jsonStringify v
  | .cons v t => jsonStringify v ++ "," ++ stringifyArr t

def stringifyFields : JsFields → String
  | .fnil => ""
  | .fcons k v .fnil => jsQuote k ++ ":" ++ jsonStringify v
  | .fcons k v t => jsQuote k ++ ":" ++ jsonStringify v ++ "," ++ stringifyFields t
end

/-! Field access on objects, mirroring JS property semantics: lookup of
the first matching key, assignment replaces an existing key in place
(keeping its position) or appends a new one, `delete`/`omit` removes the
key. -/

def lookupF : JsFields → String → Option JsValue
  | .fnil, _ => none
  | .fcons k v t, key => if k == key then some v else lookupF t key

def setFkv : JsFields → String → JsValue → JsFields
  | .fnil, key, nv => .fcons key nv .fnil
  | .fcons k v t, key, nv =>
    if k == key then .fcons k nv t else .fcons k v (setFkv t key nv)

def removeFk : JsFields → String → JsFields
  | .fnil, _ => .fnil
  | .fcons k v t, key =>
    if k == key then removeFk t key else .fcons k v (removeFk t key)

def getField (v : JsValue) (key : String) : Option JsValue :=
  match v with
  | .vobj fs => lookupF fs key
  | _ => none

def setField (v : JsValue) (key : String) (nv : JsValue) : JsValue :=
  match v with
  | .vobj fs => .vobj (setFkv fs key nv)
  | _ => v

def removeField (v : JsValue) (key : String) : JsValue :=
  match v with
  | .vobj fs => .vobj (removeFk fs key)
  | _ => v

/-- The source's `removeMeta = omit(['__modified', '__original'])`
(model.js): strips exactly the two bookkeeping fields from the outgoing
document. -/
def removeMeta (v : JsValue) : JsValue :=
  removeField (removeField v "__modified") "__original"

/-! ## Immutable core: copy-on-write `mutate` (immutable.js)

A `Store` is a list of backing plain values; an address is an index into
it.  Each `Immutable.create` call allocates a fresh backing value (JS: a
fresh object identity), so distinct addresses model distinct JS objects.
`Immut` is the wrapper: it holds the address of its backing data. -/

abbrev Store := List JsValue

structure Immut where
  addr : Nat
deriving DecidableEq

def allocStore (s : Store) (v : JsValue) : Store × Immut :=
  (s ++ [v], ⟨s.length⟩)

/-- `toObject` returns the live backing plain value (immutable.js line 95). -/
def toObject (s : Store) (x : Immut) : Option JsValue :=
  s.get? x.addr

/-- `Immutable.create(data, options)` past the `isImmutable` short-circuit:
with `clone: true` (default) the backing value is a deep clone of the
input, with `clone: false` the input value itself; either way a fresh
object is allocated. -/
def createI (s : Store) (v : JsValue) (cloneFlag : Bool) : Store × Immut :=
  allocStore s (if cloneFlag then cloneV v else v)

/-- `mutate(cb)` (immutable.js lines 99-103):
`const obj = clone(data); cb.apply(obj); return Immutable.create(obj, {clone: false})`.
`cb.apply(obj)` mutates the fresh clone in place; its net effect is the
function `cb : JsValue → JsValue` applied to the clone.  The result is
wrapped without re-cloning, and the original backing value is not written. -/
def mutateI (s : Store) (x : Immut) (cb : JsValue → JsValue) : Store × Immut :=
  match toObject s x with
  | some data => createI s (cb (cloneV data)) false
  | none => (s, x)

/-! ## Array handler `splice` (array handler in object.js)

The handler computes
`front = data.slice(0, start); back = data.slice(start + deleteCount);`
and returns `front.concat(items, back)` as a new Immutable array — the
backing array is only read, never written.  JS `Array.prototype.slice`
resolves a relative index `i` against length `len` as
`i < 0 ? max(len + i, 0) : min(i, len)`.  A missing `deleteCount` makes
`start + deleteCount` equal `NaN`, and `slice(NaN)` behaves as
`slice(0)`. -/

def jsRelIdx (len : Nat) (i : Int) : Nat :=
  if i < 0 then ((len : Int) + i).toNat else min i.toNat len

def jsSlice {α : Type} (xs : List α) (start : Int) (stop : Option Int) : List α :=
  let len := xs.length
  let b := jsRelIdx len start
  let e := match stop with
    | some st => jsRelIdx len st
    | none => len
  (xs.take e).drop b

def spliceCode {α : Type} (xs : List α) (start : Int) (deleteCount : Option Int)
    (items : List α) : List α :=
  let front := jsSlice xs 0 (some start)
  let back := match deleteCount with
    | some dc => jsSlice xs (start + dc) none
    | none => jsSlice xs 0 none
  front ++ items ++ back

/-- Standard `Array.prototype.splice` remainder semantics, as the spec
describes them: clamp `start` into `[0, len]` (negatives relative to the
end), clamp `deleteCount` into `[0, len - actualStart]` (missing means
delete to the end), remove that range and insert `items` at
`actualStart`.  Stated from the specification for comparison with
`spliceCode`. -/
def spliceStd {α : Type} (xs : List α) (start : Int) (deleteCount : Option Int)
    (items : List α) : List α :=
  let len := xs.length
  let actualStart := if start < 0 then ((len : Int) + start).toNat else min start.toNat len
  let actualDelete := match deleteCount with
    | none => len - actualStart
    | some dc => min dc.toNat (len - actualStart)
  xs.take actualStart ++ items ++ xs.drop (actualStart + actualDelete)

/-! ## Type-handler registry (immutable.js `use` / `create`)

`Immutable.use` pushes `{type, handler}` onto `typeHandlers`.  `create`
then runs `typeHandlers.forEach(...)`; inside the callback each handler is
invoked at most once (the `return` statements), but `return` inside a
`forEach` callback only ends that callback, so iteration continues with
the remaining registrations.  Handlers are identified here by a numeric
id; what matters for the claims is which handlers get invoked and in what
order. -/

/-- The shapes of data reaching the handler dispatch.  `create` is only
reached for non-scalar data (scalars are `isImmutable` and returned
unchanged), and `typeof` of every such value is the string "object". -/
inductive DataKind where
  | plainObj
  | arrData
  | dateData
  | objectIdData
deriving DecidableEq

def typeofData : DataKind → String := fun _ => "object"

def isArrayData : DataKind → Bool
  | .arrData => true
  | _ => false

/-- JS test `data._bsontype === 'ObjectID'`. -/
def isObjectIdData : DataKind → Bool
  | .objectIdData => true
  | _ => false

/-- JS test `data instanceof Date` (the only constructor-keyed handler). -/
def isDateData : DataKind → Bool
  | .dateData => true
  | _ => false

/-- A registration key: a string type name, or the `Date` constructor. -/
inductive HandlerKey where
  | tname (t : String)
  | ctorDate
deriving DecidableEq

structure Registration where
  key : HandlerKey
  hid : Nat
deriving DecidableEq

/-- JS `String.prototype.toLowerCase`, written over the character list so
it reduces in the kernel. -/
def strToLower (s : String) : String :=
  String.mk (s.data.map Char.toLower)

/-- The match rule applied to one registration inside the `forEach`
callback (immutable.js lines 105-118), with the source's branch
structure: string keys match on `'*'`, on `typeof data`, on
`'array'`/`Array.isArray`, or on `'objectid'`/`_bsontype`; function keys
match by `instanceof`. -/
def matchesKey (k : HandlerKey) (d : DataKind) : Bool :=
  match k with
  | .tname t =>
    if t == "*" || typeofData d == t then true
    else if strToLower t == "array" && isArrayData d then true
    else if strToLower t == "objectid" && isObjectIdData d then true
    else false
  | .ctorDate => isDateData d

/-- The handler ids invoked by `create`, in iteration order: the
`forEach` loop invokes every registration whose rule matches. -/
def invokedHandlers (regs : List Registration) (d : DataKind) : List Nat :=
  regs.foldl (fun acc r => if matchesKey r.key d then acc ++ [r.hid] else acc) []

/-- The claim's reading of the dispatch, stated from the specification
for comparison: only the first matching registration is invoked. -/
def firstMatchInvoked (regs : List Registration) (d : DataKind) : List Nat :=
  match regs.find? (fun r => matchesKey r.key d) with
  | some r => [r.hid]
  | none => []

/-- The registrations performed by model.js (lines 576-580), in order:
defined-object (universal), `'array'`, `Date`, `'objectid'`,
plain-object (universal). -/
def cosaRegistrations : List Registration :=
  [ ⟨.tname "*", 0⟩,
    ⟨.tname "array", 1⟩,
    ⟨.ctorDate, 2⟩,
    ⟨.tname "objectid", 3⟩,
    ⟨.tname "*", 4⟩ ]

/-! ## Persistence write phase (model.js `_saveHelper` / `remove`)

The write phase starts from the validated outgoing plain document.  The
external database collaborator's reply is a parameter (`ReplaceResult` /
`DeleteResult`), and the embedding returns, alongside the outcome, the
exact list of database commands issued — so "filtered by `{_id, _etag}`"
and "no automatic retry" are statable as properties of that list. -/

structure ReplaceResult where
  matchedCount : Nat
deriving DecidableEq

structure DeleteResult where
  deletedCount : Nat
deriving DecidableEq

inductive CosaErr where
  | conflict (msg : String)
deriving DecidableEq

inductive DbCmd where
  | replace (fId : Option JsValue) (fEtag : Option JsValue) (doc : JsValue)
  | insert (doc : JsValue)
  | delete (fId : Option JsValue) (fEtag : Option JsValue)
deriving DecidableEq

/-- The string handed to the content-hash function during save
(`_saveHelper` lines 696-697): `etag(JSON.stringify(obj))` evaluated
right after `obj = removeMeta(obj)` and before `obj._etag = newEtag` —
so the old `_etag` field, when present, is still part of the input. -/
def etagInputCode (doc : JsValue) : String :=
  jsonStringify (removeMeta doc)

/-- The hash input as the specification describes it — the canonical
JSON of the outgoing document with the old `_etag` excluded.  Stated from
the specification's words for comparison with `etagInputCode`. -/
def specEtagInput (doc : JsValue) : String :=
  jsonStringify (removeField (removeMeta doc) "_etag")

/-- Update branch of `_saveHelper` (lines 700-720): build the filter
`{_id: obj._id, _etag: obj._etag}` from the outgoing document before
overwriting its `_etag`, issue exactly one `db.replace`, and convert a
zero `matchedCount` into a Conflict error (no retry). -/
def saveExisting (etagFn : String → String) (doc : JsValue) (resp : ReplaceResult) :
    List DbCmd × Except CosaErr JsValue :=
  let outgoing := removeMeta doc
  let newEtag := etagFn (jsonStringify outgoing)
  let fId := getField outgoing "_id"
  let fEtag := getField outgoing "_etag"
  let outDoc := setField outgoing "_etag" (.vstr newEtag)
  ([DbCmd.replace fId fEtag outDoc],
   if resp.matchedCount == 0 then
     .error (.conflict "Document update conflict")
   else
     .ok outDoc)

/-- Insert branch of `_saveHelper` (lines 721-735): set the new `_etag`
on the outgoing document and issue exactly one `db.insert`; the returned
model is rebuilt from the collaborator's stored document. -/
def saveNew (etagFn : String → String) (doc : JsValue) (storedDoc : JsValue) :
    List DbCmd × JsValue :=
  let outgoing := removeMeta doc
  let newEtag := etagFn (jsonStringify outgoing)
  let outDoc := setField outgoing "_etag" (.vstr newEtag)
  ([DbCmd.insert outDoc], storedDoc)

/-- `remove` (lines 885-895): issue exactly one `db.remove` with the
filter `{_id: this._id, _etag: this._etag}` and convert a zero
`deletedCount` into a Conflict error (no retry). -/
def removeModel (fId fEtag : Option JsValue) (resp : DeleteResult) :
    List DbCmd × Except CosaErr DeleteResult :=
  ([DbCmd.delete fId fEtag],
   if resp.deletedCount == 0 then
     .error (.conflict "Document remove conflict")
   else
     .ok resp)

/-! ## Session coordinator (session.js)

A queued continuation is represented by its observable behaviour when
invoked: `Except E Unit` (it either resolves or throws a value of type
`E`).  `commitTransaction` commits the native transaction (which may
itself throw — modeled by the `native` argument; in that case no
continuation runs), ends the session, then runs the queued continuations
serially; the `catch` block keeps only the first error
(`if (!error) { error = err; }`), and the function ends with
`if (error) { throw error; }`.  The run functions return the list of
indices of the continuations actually invoked, in invocation order. -/

def collectFirstErr {E : Type} (acc : Option E) (r : Except E Unit) : Option E :=
  match acc with
  | some e => some e
  | none =>
    match r with
    | .error e => some e
    | .ok _ => none

/-- Serial loop over `afterCommits` (the `forEachSerialP` call in
`commitTransaction`), indexed from `i`. -/
def runCommitsFrom {E : Type} (i : Nat) (err : Option E) :
    List (Except E Unit) → List Nat × Option E
  | [] => ([], err)
  | c :: rest =>
    let r := runCommitsFrom (i + 1) (collectFirstErr err c) rest
    (i :: r.1, r.2)

/-- Serial loop over `afterAborts` in `abortTransaction`.  Its catch block
reads `if (!err) { error = err; }`: a thrown JS `Error` object is always
truthy, so the guard never fires and no continuation error is ever
recorded — every continuation still runs. -/
def runAbortsFrom {E : Type} (i : Nat) (err : Option E) :
    List (Except E Unit) → List Nat × Option E
  | [] => ([], err)
  | _ :: rest =>
    let r := runAbortsFrom (i + 1) err rest
    (i :: r.1, r.2)

/-- `commitTransaction` (session.js lines 35-49). -/
def commitTransactionM {E : Type} (native : Except E Unit)
    (conts : List (Except E Unit)) : List Nat × Except E Unit :=
  match native with
  | .error e => ([], .error e)
  | .ok _ =>
    let r := runCommitsFrom 0 none conts
    (r.1,
     match r.2 with
     | some e => .error e
     | none => .ok ())

/-- `abortTransaction` (session.js lines 12-26). -/
def abortTransactionM {E : Type} (native : Except E Unit)
    (conts : List (Except E Unit)) : List Nat × Except E Unit :=
  match native with
  | .error e => ([], .error e)
  | .ok _ =>
    let r := runAbortsFrom 0 none conts
    (r.1,
     match r.2 with
     | some e => .error e
     | none => .ok ())

/-- The first error among the continuation outcomes, in push order. -/
def firstError {E : Type} : List (Except E Unit) → Option E
  | [] => none
  | .error e :: _ => some e
  | .ok _ :: rest => firstError rest

/-- The behaviour the claim ascribes to `commitTransaction`, stated from
the specification for comparison: run everything and RETURN the list of
collected errors (empty list on full success) instead of throwing. -/
def claimCommitTransaction {E : Type} (native : Except E Unit)
    (conts : List (Except E Unit)) : List Nat × Except E (List E) :=
  match native with
  | .error e => ([], .error e)
  | .ok _ =>
    (List.range conts.length,
     .ok (conts.filterMap (fun c =>
       match c with
       | .error e => some e
       | .ok _ => none)))

/-- Observation: does an `Except` outcome carry an error (i.e. does the
call reject)? -/
def throwsE {E α : Type} : Except E α → Bool
  | .error _ => true
  | .ok _ => false

/-! ## Hook orchestration under a session (model.js `_saveHelper` lines
737-746 and `remove` lines 898-907)

When `options.session` is present, the source awaits the instance's own
`afterSave`/`afterRemove` inline, and pushes closures invoking
`afterSaveCommit`/`afterSaveAbort` (resp. `afterRemoveCommit`/
`afterRemoveAbort`) onto `options.session.afterCommits`/`afterAborts`.
Each save/remove is tagged with an operation id; the embedding returns
the hook events fired during the call together with the updated session
queues. -/

inductive ContKind where
  | saveCommit
  | saveAbort
  | removeCommit
  | removeAbort
deriving DecidableEq

/-- A queued continuation: which operation pushed it and which hook it
will invoke when the transaction resolves. -/
structure Cont where
  opId : Nat
  kind : ContKind
deriving DecidableEq

structure SessState where
  afterCommits : List Cont
  afterAborts : List Cont
deriving DecidableEq

/-- Which optional hooks the saved model declares (the source's
`'function' === typeof ...` probes). -/
structure SaveHooks where
  hasAfterSave : Bool
  hasAfterSaveCommit : Bool
  hasAfterSaveAbort : Bool
deriving DecidableEq

structure RemoveHooks where
  hasAfterRemove : Bool
  hasAfterRemoveCommit : Bool
  hasAfterRemoveAbort : Bool
deriving DecidableEq

/-- An observable hook event: an inline hook awaited during the
save/remove call itself, or a queued continuation being invoked (the
latter only ever happens inside `commitTransaction`/`abortTransaction`). -/
inductive HookEvent where
  | inlineAfterSave (opId : Nat)
  | inlineAfterRemove (opId : Nat)
  | contRun (c : Cont)
deriving DecidableEq

/-- Session branch of `_saveHelper`'s post-write orchestration: await
`afterSave` inline, defer `afterSaveCommit`/`afterSaveAbort` into the
session queues. -/
def saveSessionHooks (opId : Nat) (h : SaveHooks) (s : SessState) :
    List HookEvent × SessState :=
  ((if h.hasAfterSave then [HookEvent.inlineAfterSave opId] else []),
   { afterCommits := s.afterCommits ++
       (if h.hasAfterSaveCommit then [⟨opId, ContKind.saveCommit⟩] else []),
     afterAborts := s.afterAborts ++
       (if h.hasAfterSaveAbort then [⟨opId, ContKind.saveAbort⟩] else []) })

/-- Session branch of `remove`'s post-delete orchestration. -/
def removeSessionHooks (opId : Nat) (h : RemoveHooks) (s : SessState) :
    List HookEvent × SessState :=
  ((if h.hasAfterRemove then [HookEvent.inlineAfterRemove opId] else []),
   { afterCommits := s.afterCommits ++
       (if h.hasAfterRemoveCommit then [⟨opId, ContKind.removeCommit⟩] else []),
     afterAborts := s.afterAborts ++
       (if h.hasAfterRemoveAbort then [⟨opId, ContKind.removeAbort⟩] else []) })

inductive SessOp where
  | save (h : SaveHooks)
  | remove (h : RemoveHooks)
deriving DecidableEq

def opHookPhase (opId : Nat) (op : SessOp) (s : SessState) :
    List HookEvent × SessState :=
  match op with
  | .save h => saveSessionHooks opId h s
  | .remove h => removeSessionHooks opId h s

/-- A sequence of saves/removes performed under one session, in call
order; events accumulate in that order. -/
def runSessionOps (ops : List (Nat × SessOp)) (s : SessState) :
    List HookEvent × SessState :=
  match ops with
  | [] => ([], s)
  | (i, op) :: rest =>
    let r1 := opHookPhase i op s
    let r2 := runSessionOps rest r1.2
    (r1.1 ++ r2.1, r2.2)

/-- The inline events one operation fires during its own call. -/
def inlineEventsOf (i : Nat) (op : SessOp) : List HookEvent :=
  match op with
  | .save h => if h.hasAfterSave then [HookEvent.inlineAfterSave i] else []
  | .remove h => if h.hasAfterRemove then [HookEvent.inlineAfterRemove i] else []

/-- The continuation (if any) one operation pushes onto `afterCommits`. -/
def commitContsOf (i : Nat) (op : SessOp) : List Cont :=
  match op with
  | .save h => if h.hasAfterSaveCommit then [⟨i, ContKind.saveCommit⟩] else []
  | .remove h => if h.hasAfterRemoveCommit then [⟨i, ContKind.removeCommit⟩] else []

/-- The continuation (if any) one operation pushes onto `afterAborts`. -/
def abortContsOf (i : Nat) (op : SessOp) : List Cont :=
  match op with
  | .save h => if h.hasAfterSaveAbort then [⟨i, ContKind.saveAbort⟩] else []
  | .remove h => if h.hasAfterRemoveAbort then [⟨i, ContKind.removeAbort⟩] else []

/-- Ordered concatenation of per-operation lists. -/
def flatOver {β : Type} (ops : List (Nat × SessOp)) (f : Nat → SessOp → List β) :
    List β :=
  match ops with
  | [] => []
  | (i, op) :: rest => f i op ++ flatOver rest f

/-! ## Instance identity: `is` / `equals` / `isModified` (model.js)

`MInst` carries the fields those methods read.  `ref` models JS object
identity (`this === obj` compares references); `id` is the `_id` as a hex
string (`undefined` when new), `etag` the `_etag`, `modified` the
`__modified` list of dotted paths. -/

structure MInst where
  ref : Nat
  type : String
  id : Option String
  etag : Option String
  modified : List String
deriving DecidableEq

/-- `is` (lines 675-681): reference equality, else same `__type`, both
`_id`s present, and equal hex strings.  (The `undefined`/`null` argument
branch is omitted: the claims quantify over pairs of instances.) -/
def isM (a b : MInst) : Bool :=
  if a.ref == b.ref then true
  else if a.type != b.type then false
  else
    match a.id, b.id with
    | some x, some y => x == y
    | _, _ => false

/-- The no-argument form of `isModified`: `this.__modified.length > 0`. -/
def hasModifications (a : MInst) : Bool :=
  a.modified.length != 0

/-- `equals` (lines 762-765): `if (this === obj) { return true; }` and
otherwise `is`, same `_etag`, and neither side modified. -/
def equalsM (a b : MInst) : Bool :=
  if a.ref == b.ref then true
  else isM a b && a.etag == b.etag && !hasModifications a && !hasModifications b

/-! ## Dotted-path modification tracking (model.js `_markAsModified`,
`isModified`, `set`)

JS `value.indexOf(prefixStr, 0) === 0` is a string-prefix test; it is
embedded as an explicit character-list comparison so its arithmetic
properties are provable. -/

def listIsPre : List Char → List Char → Bool
  | [], _ => true
  | _ :: _, [] => false
  | a :: as, b :: bs => a == b && listIsPre as bs

/-- JS `s.indexOf(pre, 0) === 0` / `s.startsWith(pre)`. -/
def jsStartsWith (s pre : String) : Bool :=
  listIsPre pre.data s.data

/-- `isModified(path)` (lines 771-786): true when some recorded entry
equals the path or begins with the path followed by a dot (i.e. some
recorded entry lies strictly below the queried path). -/
def isModifiedPath (modified : List String) (path : String) : Bool :=
  modified.any (fun v => v == path || jsStartsWith v (path ++ "."))

/-- `isModified()` with no argument. -/
def isModifiedNoArg (modified : List String) : Bool :=
  modified.length != 0

/-- The claim's reading of `isModified(path)`, stated from the
specification for comparison: the exact path or some ANCESTOR of it is
recorded. -/
def specAncestorIsModified (modified : List String) (path : String) : Bool :=
  modified.any (fun v => v == path || jsStartsWith path (v ++ "."))

/-- One pass of `_markAsModified` for a single path (lines 653-666): drop
every recorded entry lying strictly below the new path, and append the
new path unless some recorded entry lies strictly above it.  (The source
computes `shouldAdd` inside the filter callback; the callback runs for
every element, so this is the same two facts computed in one pass.) -/
def markOnePath (modified : List String) (path : String) : List String :=
  let shouldAdd := modified.all (fun v => !(jsStartsWith path (v ++ ".")))
  let fil := modified.filter (fun v => !(jsStartsWith v (path ++ ".")))
  if shouldAdd then fil ++ [path] else fil

/-- `_markAsModified` over the given path list (`paths.forEach`). -/
def markAsModified (modified : List String) (paths : List String) : List String :=
  paths.foldl markOnePath modified

/-- Effect of `set(path, value, options)` on `__modified` (lines
792-809): unless `options.silent`, mark the single path as modified. -/
def setModifiedEffect (modified : List String) (path : String) (silent : Bool) :
    List String :=
  if silent then modified else markAsModified modified [path]

/-! ## Helper lemmas -/

theorem listIsPre_length {as bs : List Char} (h : listIsPre as bs = true) :
    as.length ≤ bs.length := by
  induction as generalizing bs with
  | nil => simp
  | cons a at' ih =>
    cases bs with
    | nil => simp [listIsPre] at h
    | cons b bt =>
      simp only [listIsPre, Bool.and_eq_true] at h
      simpa using Nat.succ_le_succ (ih h.2)

theorem strData_append (a b : String) : (a ++ b).data = a.data ++ b.data := by
  cases a
  cases b
  rfl

/-- No string starts with itself followed by a dot (the appended copy is
strictly longer). -/
theorem jsStartsWith_self_dot (s : String) : jsStartsWith s (s ++ ".") = false := by
  unfold jsStartsWith
  cases h : listIsPre (s ++ ".").data s.data with
  | false => rfl
  | true =>
    have hl := listIsPre_length h
    rw [strData_append] at hl
    simp at hl

/-! ## C1: copy-on-write `mutate` -/

/-- C1: for every Immutable instance x (a valid store address) and every
mutation callback f, y = x.mutate(f) leaves x unchanged — x.toObject() is
the same before and after — and y.toObject() equals the result of
applying f to a clone of x.toObject(); y is a fresh object, so the
original is never mutated in place. -/
theorem mutate_copy_on_write (s : Store) (x : Immut) (cb : JsValue → JsValue)
    (h : x.addr < s.length) :
    toObject (mutateI s x cb).1 x = toObject s x ∧
    ∃ v, toObject s x = some v ∧
      toObject (mutateI s x cb).1 (mutateI s x cb).2 = some (cb (cloneV v)) ∧
      (mutateI s x cb).2.addr ≠ x.addr := by
  obtain ⟨v, hv⟩ : ∃ v, s.get? x.addr = some v := ⟨_, List.get?_eq_get h⟩
  have hv2 : s[x.addr]? = some v := by
    rw [← List.get?_eq_getElem?]
    exact hv
  have hm : mutateI s x cb = (s ++ [cb (cloneV v)], ⟨s.length⟩) := by
    simp [mutateI, toObject, hv2, createI, allocStore]
  refine ⟨?_, v, hv, ?_, ?_⟩
  · rw [hm]
    show (s ++ [cb (cloneV v)]).get? x.addr = s.get? x.addr
    exact List.get?_append h
  · rw [hm]
    show (s ++ [cb (cloneV v)]).get? s.length = some (cb (cloneV v))
    exact List.get?_concat_length s (cb (cloneV v))
  · rw [hm]
    intro hc
    simp only at hc
    omega

/-- Witness for C1 at a concrete one-cell store. -/
theorem mutate_copy_on_write_witness :
    (Immut.mk 0).addr < ([JsValue.vnum 5] : Store).length ∧
    toObject (mutateI [JsValue.vnum 5] ⟨0⟩ (fun v => JsValue.varr (.cons v .nil))).1 ⟨0⟩ =
      toObject [JsValue.vnum 5] ⟨0⟩ :=
  ⟨by decide,
   (mutate_copy_on_write [JsValue.vnum 5] ⟨0⟩ (fun v => JsValue.varr (.cons v .nil))
     (by decide)).1⟩

/-! ## C9: array `splice` -/

/-- C9 counterexample: the claim asserts standard splice semantics
including negative-index clamping, but on [1, 2, 3] with start -1 and
deleteCount 1 the handler returns [1, 2, 1, 2, 3] where standard splice
leaves [1, 2]. -/
theorem splice_negative_start_counterexample :
    spliceCode [1, 2, 3] (-1) (some 1) ([] : List Int) = [1, 2, 1, 2, 3] ∧
    spliceStd [1, 2, 3] (-1) (some 1) ([] : List Int) = [1, 2] ∧
    spliceCode [1, 2, 3] (-1) (some 1) ([] : List Int) ≠
      spliceStd [1, 2, 3] (-1) (some 1) ([] : List Int) := by
  refine ⟨by decide, by decide, by decide⟩

/-- C9 amended: the pure splice of the array handler agrees with the
standard Array.prototype.splice remainder whenever start and the supplied
deleteCount are non-negative (overflow of either is clamped exactly as in
standard splice); the original array is left unchanged by construction.
Negative start values and a missing deleteCount deviate from standard
splice. -/
theorem splice_nonneg_agrees_std {α : Type} (xs : List α) (start dc : Int)
    (items : List α) (hs : 0 ≤ start) (hd : 0 ≤ dc) :
    spliceCode xs start (some dc) items = spliceStd xs start (some dc) items := by
  unfold spliceCode spliceStd jsSlice jsRelIdx
  have h0 : ¬ ((0 : Int) < 0) := by omega
  have hs' : ¬ (start < 0) := by omega
  have hsd : ¬ (start + dc < 0) := by omega
  simp only [h0, hs', hsd, if_false, if_neg]
  have htn : (Int.toNat 0) = 0 := rfl
  have hadd : (start + dc).toNat = start.toNat + dc.toNat := Int.toNat_add hs hd
  have hidx : min (start + dc).toNat xs.length =
      min start.toNat xs.length +
        min dc.toNat (xs.length - min start.toNat xs.length) := by
    rw [hadd]; omega
  rw [htn]
  simp only [Nat.zero_min, List.drop_zero, List.take_length, hidx]

/-- Witness for C9 amended at concrete arguments. -/
theorem splice_nonneg_agrees_std_witness :
    (0 : Int) ≤ 1 ∧ (0 : Int) ≤ 5 ∧
    spliceCode [10, 20, 30] 1 (some 5) ([7] : List Int) =
      spliceStd [10, 20, 30] 1 (some 5) ([7] : List Int) :=
  ⟨by decide, by decide,
   splice_nonneg_agrees_std [10, 20, 30] 1 5 [7] (by decide) (by decide)⟩

/-! ## C10: exact repeats duplicate in `__modified` -/

/-- C10: when the path p is already recorded in __modified and no strict
ancestor of p is recorded (which is what the collapsing filter checks), a
further non-silent set(p, value) pushes p again: the count of p grows by
one, so __modified holds p at least twice — the filter removes only
strict descendants and the recorded exact copy survives it. -/
theorem set_repeat_duplicates_modified (modified : List String) (p : String)
    (hmem : p ∈ modified)
    (hanc : ∀ v ∈ modified, jsStartsWith p (v ++ ".") = false) :
    (setModifiedEffect modified p false).count p = modified.count p + 1 ∧
    2 ≤ (setModifiedEffect modified p false).count p := by
  have hall : modified.all (fun v => !(jsStartsWith p (v ++ "."))) = true := by
    rw [List.all_eq_true]
    intro v hv
    simp [hanc v hv]
  have hres : setModifiedEffect modified p false =
      modified.filter (fun v => !(jsStartsWith v (p ++ "."))) ++ [p] := by
    simp [setModifiedEffect, markAsModified, markOnePath, hall]
  have hkeep : (fun v => !(jsStartsWith v (p ++ "."))) p = true := by
    simp [jsStartsWith_self_dot]
  have hcount : (modified.filter (fun v => !(jsStartsWith v (p ++ ".")))).count p =
      modified.count p := List.count_filter hkeep
  have hpos : 0 < modified.count p := List.count_pos_iff_mem.mpr hmem
  constructor
  · rw [hres, List.count_append, hcount]
    simp
  · rw [hres, List.count_append, hcount]
    have h1 : ([p] : List String).count p = 1 := by simp
    omega

/-- Witness for C10: __modified = ["a"], setting "a" again yields a
duplicate. -/
theorem set_repeat_duplicates_modified_witness :
    ("a" ∈ ["a"]) ∧ (setModifiedEffect ["a"] "a" false).count "a" = 2 := by
  refine ⟨by decide, ?_⟩
  have h := set_repeat_duplicates_modified ["a"] "a" (by decide) (by decide)
  have h1 : (["a"] : List String).count "a" = 1 := by decide
  omega

/-! ## C2: etag-guarded writes and Conflict -/

/-- C2: the update of a persisted save is issued exactly once (no retry)
with the filter built from the outgoing document's own _id and old
_etag; the delete of remove is issued exactly once with the filter
built from the instance's _id and _etag; whenever the guarded write
matches (resp. deletes) zero documents, the call fails with a Conflict
error, and otherwise succeeds. -/
theorem etag_guarded_write_conflict (etagFn : String → String) (doc : JsValue)
    (resp : ReplaceResult) (fId fEtag : Option JsValue) (dresp : DeleteResult) :
    ((saveExisting etagFn doc resp).1 =
      [DbCmd.replace (getField (removeMeta doc) "_id") (getField (removeMeta doc) "_etag")
        (setField (removeMeta doc) "_etag" (.vstr (etagFn (etagInputCode doc))))]) ∧
    (resp.matchedCount = 0 →
      (saveExisting etagFn doc resp).2 =
        .error (.conflict "Document update conflict")) ∧
    (resp.matchedCount ≠ 0 →
      (saveExisting etagFn doc resp).2 =
        .ok (setField (removeMeta doc) "_etag" (.vstr (etagFn (etagInputCode doc))))) ∧
    ((removeModel fId fEtag dresp).1 = [DbCmd.delete fId fEtag]) ∧
    (dresp.deletedCount = 0 →
      (removeModel fId fEtag dresp).2 =
        .error (.conflict "Document remove conflict")) ∧
    (dresp.deletedCount ≠ 0 → (removeModel fId fEtag dresp).2 = .ok dresp) := by
  refine ⟨rfl, ?_, ?_, rfl, ?_, ?_⟩
  · intro h
    simp [saveExisting, h]
  · intro h
    simp [saveExisting, etagInputCode, h]
  · intro h
    simp [removeModel, h]
  · intro h
    simp [removeModel, h]

/-- Outgoing document used by the C2 witness. -/
def witnessDoc : JsValue :=
  .vobj (fieldsOf [("_id", .vstr "id9"), ("_etag", .vstr "E0"), ("num", .vnum 7)])

/-- Witness for C2: a zero matched/deleted count yields the Conflict
error on both paths. -/
theorem etag_guarded_write_conflict_witness :
    (saveExisting id witnessDoc ⟨0⟩).2 =
      .error (.conflict "Document update conflict") ∧
    (removeModel (some (.vstr "id9")) (some (.vstr "E0")) ⟨0⟩).2 =
      .error (.conflict "Document remove conflict") :=
  ⟨(etag_guarded_write_conflict id witnessDoc ⟨0⟩ none none ⟨0⟩).2.1 rfl,
   (etag_guarded_write_conflict id witnessDoc ⟨0⟩ (some (.vstr "id9"))
     (some (.vstr "E0")) ⟨0⟩).2.2.2.2.1 rfl⟩

/-! ## C4: what the new _etag hashes -/

/-- Outgoing document exhibiting the C4 divergence. -/
def sampleDoc : JsValue :=
  .vobj (fieldsOf [("_id", .vstr "doc1"), ("_etag", .vstr "OLD"), ("str", .vstr "x"),
    ("__modified", .varr .nil), ("__original", .vnull)])

/-- C4 counterexample: the string hashed for the new _etag still
contains the old _etag field — it is not excluded as the claim states;
only __modified and __original are stripped. -/
theorem etag_input_includes_old_etag_counterexample :
    etagInputCode sampleDoc =
      "\x7b\"_id\":\"doc1\",\"_etag\":\"OLD\",\"str\":\"x\"\x7d" ∧
    specEtagInput sampleDoc = "\x7b\"_id\":\"doc1\",\"str\":\"x\"\x7d" ∧
    etagInputCode sampleDoc ≠ specEtagInput sampleDoc := by
  refine ⟨by decide, by decide, by decide⟩

theorem lookupF_removeFk : ∀ (fs : JsFields) (k k2 : String), k ≠ k2 →
    lookupF (removeFk fs k2) k = lookupF fs k
  | .fnil, _, _, _ => rfl
  | .fcons key v t, k, k2, h => by
    by_cases hk : key == k2
    · have hkey : key = k2 := by simpa using hk
      have hkk : (key == k) = false := by
        subst hkey
        simpa using fun hc => h hc.symm
      simp [removeFk, hk, lookupF, hkk, lookupF_removeFk t k k2 h]
    · simp only [removeFk, hk, Bool.false_eq_true, if_neg, lookupF,
        lookupF_removeFk t k k2 h]

theorem getField_removeMeta (doc : JsValue) (k : String)
    (h1 : k ≠ "__modified") (h2 : k ≠ "__original") :
    getField (removeMeta doc) k = getField doc k := by
  cases doc with
  | vobj fs =>
    show lookupF (removeFk (removeFk fs "__modified") "__original") k = lookupF fs k
    rw [lookupF_removeFk _ _ _ h2, lookupF_removeFk _ _ _ h1]
  | vnull => rfl
  | vbool b => rfl
  | vnum n => rfl
  | vstr s => rfl
  | varr xs => rfl

/-- C4 amended: on both the update and the insert branch the new _etag is
the content-hash of the canonical JSON of the outgoing document with
__modified and __original stripped, but the old _etag is NOT excluded
from the hashed input: the hashed document's _etag field is exactly the
document's current (old) _etag, and the update filter also carries it.  A
brand-new document simply has no _etag field yet. -/
theorem etag_hash_input (etagFn : String → String) (doc : JsValue)
    (resp : ReplaceResult) (storedDoc : JsValue) :
    ((saveExisting etagFn doc resp).1 =
      [DbCmd.replace (getField doc "_id") (getField doc "_etag")
        (setField (removeMeta doc) "_etag" (.vstr (etagFn (etagInputCode doc))))]) ∧
    ((saveNew etagFn doc storedDoc).1 =
      [DbCmd.insert (setField (removeMeta doc) "_etag"
        (.vstr (etagFn (etagInputCode doc))))]) ∧
    getField (removeMeta doc) "_etag" = getField doc "_etag" := by
  have hid : getField (removeMeta doc) "_id" = getField doc "_id" :=
    getField_removeMeta doc "_id" (by decide) (by decide)
  have het : getField (removeMeta doc) "_etag" = getField doc "_etag" :=
    getField_removeMeta doc "_etag" (by decide) (by decide)
  refine ⟨?_, rfl, het⟩
  show [DbCmd.replace (getField (removeMeta doc) "_id") (getField (removeMeta doc) "_etag")
      (setField (removeMeta doc) "_etag" (.vstr (etagFn (etagInputCode doc))))] = _
  rw [hid, het]

/-! ## C5: handler dispatch is not first-match-wins -/

/-- C5 counterexample: with the source's actual registration order
(defined-object as a universal handler first, then array, Date,
objectid, plain-object), creating an Immutable from an array invokes
handlers 0, 1 and 4 — the universal handler registered first does not
shadow the later array handler, contradicting first-match-wins. -/
theorem handler_dispatch_counterexample :
    invokedHandlers cosaRegistrations .arrData = [0, 1, 4] ∧
    firstMatchInvoked cosaRegistrations .arrData = [0] ∧
    invokedHandlers cosaRegistrations .arrData ≠
      firstMatchInvoked cosaRegistrations .arrData := by
  refine ⟨by decide, by decide, by decide⟩

theorem invokedHandlers_go (d : DataKind) :
    ∀ (regs : List Registration) (acc : List Nat),
      regs.foldl (fun acc r => if matchesKey r.key d then acc ++ [r.hid] else acc) acc =
        acc ++ (regs.filter (fun r => matchesKey r.key d)).map (fun r => r.hid)
  | [], acc => by simp
  | r :: rest, acc => by
    by_cases hm : matchesKey r.key d
    · rw [List.foldl_cons, if_pos hm, invokedHandlers_go d rest,
        List.filter_cons_of_pos (by simpa using hm), List.map_cons]
      simp
    · rw [List.foldl_cons, if_neg hm, invokedHandlers_go d rest,
        List.filter_cons_of_neg (by simpa using hm)]

/-- C5 amended: `create`'s `forEach` dispatch invokes EVERY registered
handler whose match rule accepts the data, in registration order (each
handler at most once); a universal handler registered earlier therefore
does not prevent a later, more specific handler from running. -/
theorem handler_dispatch_all_matching (regs : List Registration) (d : DataKind) :
    invokedHandlers regs d =
      (regs.filter (fun r => matchesKey r.key d)).map (fun r => r.hid) := by
  simpa using invokedHandlers_go d regs []

/-! ## C3: commitTransaction / abortTransaction behaviour -/

/-- C3 counterexample: with three queued continuations of which the first
and third throw, the native commit succeeding, `commitTransaction` runs
all three in push order but then THROWS the first collected error instead
of returning the list of collected errors that the claim (formalised as
`claimCommitTransaction`) prescribes. -/
theorem commit_throws_counterexample :
    (commitTransactionM (Except.ok ()) [Except.error 1, Except.ok (), Except.error (2 : Nat)]).1 =
      [0, 1, 2] ∧
    (commitTransactionM (Except.ok ()) [Except.error 1, Except.ok (), Except.error (2 : Nat)]).2 =
      Except.error 1 ∧
    throwsE (commitTransactionM (Except.ok ())
      [Except.error 1, Except.ok (), Except.error (2 : Nat)]).2 = true ∧
    claimCommitTransaction (Except.ok ()) [Except.error 1, Except.ok (), Except.error (2 : Nat)] =
      ([0, 1, 2], Except.ok [1, 2]) := by
  refine ⟨rfl, rfl, rfl, rfl⟩

theorem runCommitsFrom_spec {E : Type} :
    ∀ (conts : List (Except E Unit)) (i : Nat) (err : Option E),
      runCommitsFrom i err conts =
        (List.range' i conts.length,
         match err with
         | some e => some e
         | none => firstError conts)
  | [], i, err => by cases err <;> rfl
  | c :: rest, i, err => by
    show (i :: (runCommitsFrom (i + 1) (collectFirstErr err c) rest).1,
          (runCommitsFrom (i + 1) (collectFirstErr err c) rest).2) = _
    rw [runCommitsFrom_spec rest (i + 1) (collectFirstErr err c)]
    cases err with
    | some e => rfl
    | none =>
      cases c with
      | error e => rfl
      | ok u => rfl

theorem runAbortsFrom_spec {E : Type} :
    ∀ (conts : List (Except E Unit)) (i : Nat) (err : Option E),
      runAbortsFrom i err conts = (List.range' i conts.length, err)
  | [], i, err => rfl
  | c :: rest, i, err => by
    show (i :: (runAbortsFrom (i + 1) err rest).1,
          (runAbortsFrom (i + 1) err rest).2) = _
    rw [runAbortsFrom_spec rest (i + 1) err]
    rfl

/-- C3 amended: when the native commit/abort throws, nothing runs and the
error propagates.  When it succeeds, every queued continuation runs
serially in push order (indices 0,...,n-1) regardless of individual
failures; but `commitTransaction` then throws the FIRST collected error
(resolving with no value when none threw) instead of returning a list of
errors, and `abortTransaction` never surfaces continuation errors at all
(its catch-block guard `if (!err)` can never hold for a thrown Error). -/
theorem commit_abort_run_all_then_throw_first {E : Type} (native : Except E Unit)
    (conts : List (Except E Unit)) :
    (∀ e, native = Except.error e →
      commitTransactionM native conts = ([], Except.error e) ∧
      abortTransactionM native conts = ([], Except.error e)) ∧
    (native = Except.ok () →
      (commitTransactionM native conts).1 = List.range conts.length ∧
      (commitTransactionM native conts).2 =
        (match firstError conts with
         | some e => Except.error e
         | none => Except.ok ()) ∧
      (abortTransactionM native conts).1 = List.range conts.length ∧
      (abortTransactionM native conts).2 = Except.ok ()) := by
  constructor
  · intro e he
    subst he
    exact ⟨rfl, rfl⟩
  · intro he
    subst he
    have hc := runCommitsFrom_spec (E := E) conts 0 none
    have ha := runAbortsFrom_spec (E := E) conts 0 none
    have hr : List.range' 0 conts.length = List.range conts.length :=
      (List.range_eq_range' conts.length).symm
    refine ⟨?_, ?_, ?_, ?_⟩
    · show (runCommitsFrom 0 none conts).1 = _
      rw [hc, hr]
    · show (match (runCommitsFrom 0 none conts).2 with
        | some e => Except.error e
        | none => Except.ok ()) = _
      rw [hc]
    · show (runAbortsFrom 0 none conts).1 = _
      rw [ha, hr]
    · show (match (runAbortsFrom 0 none conts).2 with
        | some e => Except.error e
        | none => Except.ok ()) = _
      rw [ha]

/-- Witness for C3 amended at a concrete continuation list. -/
theorem commit_abort_run_all_then_throw_first_witness :
    (commitTransactionM (Except.ok ()) [Except.error 7, Except.ok (), Except.error (9 : Nat)]).1 =
      List.range 3 ∧
    (abortTransactionM (Except.ok ()) [Except.error 7, Except.ok (), Except.error (9 : Nat)]).2 =
      Except.ok () := by
  have h := (commit_abort_run_all_then_throw_first (Except.ok ())
    [Except.error 7, Except.ok (), Except.error (9 : Nat)]).2 rfl
  exact ⟨h.1, h.2.2.2⟩

/-! ## C6: inline hooks vs deferred continuations under a session -/

theorem opHookPhase_events (i : Nat) (op : SessOp) (s : SessState) :
    (opHookPhase i op s).1 = inlineEventsOf i op ∧
    (opHookPhase i op s).2.afterCommits = s.afterCommits ++ commitContsOf i op ∧
    (opHookPhase i op s).2.afterAborts = s.afterAborts ++ abortContsOf i op := by
  cases op with
  | save h => exact ⟨rfl, rfl, rfl⟩
  | remove h => exact ⟨rfl, rfl, rfl⟩

theorem contRun_not_inline (i : Nat) (op : SessOp) (c : Cont) :
    HookEvent.contRun c ∉ inlineEventsOf i op := by
  cases op with
  | save h =>
    by_cases hh : h.hasAfterSave <;> simp [inlineEventsOf, hh]
  | remove h =>
    by_cases hh : h.hasAfterRemove <;> simp [inlineEventsOf, hh]

/-- C6: for a sequence of saves/removes performed with a session, each
operation's own afterSave/afterRemove hook (when declared) is awaited
during that operation's call itself — it appears among that call's own
events — while no deferred continuation is invoked during any of the
calls; the afterSaveCommit/afterRemoveCommit (resp. ...Abort) hooks are
instead pushed onto the session's afterCommits (resp. afterAborts) queue,
appended in exactly the order the saves/removes occurred. -/
theorem session_hooks_inline_and_deferred (ops : List (Nat × SessOp)) (s : SessState) :
    (runSessionOps ops s).1 = flatOver ops inlineEventsOf ∧
    (∀ c, HookEvent.contRun c ∉ (runSessionOps ops s).1) ∧
    (runSessionOps ops s).2.afterCommits =
      s.afterCommits ++ flatOver ops commitContsOf ∧
    (runSessionOps ops s).2.afterAborts =
      s.afterAborts ++ flatOver ops abortContsOf := by
  induction ops generalizing s with
  | nil =>
    refine ⟨rfl, ?_, by simp [runSessionOps, flatOver], by simp [runSessionOps, flatOver]⟩
    intro c hc
    simp [runSessionOps] at hc
  | cons p rest ih =>
    obtain ⟨i, op⟩ := p
    obtain ⟨h1, h2, h3⟩ := opHookPhase_events i op s
    obtain ⟨ih1, ih2, ih3, ih4⟩ := ih (opHookPhase i op s).2
    refine ⟨?_, ?_, ?_, ?_⟩
    · show (opHookPhase i op s).1 ++ (runSessionOps rest (opHookPhase i op s).2).1 = _
      rw [h1, ih1]
      rfl
    · intro c hc
      show False
      have : HookEvent.contRun c ∈
          (opHookPhase i op s).1 ++ (runSessionOps rest (opHookPhase i op s).2).1 := hc
      rcases List.mem_append.mp this with hmem | hmem
      · rw [h1] at hmem
        exact contRun_not_inline i op c hmem
      · exact ih2 c hmem
    · show (runSessionOps rest (opHookPhase i op s).2).2.afterCommits = _
      rw [ih3, h2]
      show s.afterCommits ++ commitContsOf i op ++ flatOver rest commitContsOf = _
      rw [List.append_assoc]
      rfl
    · show (runSessionOps rest (opHookPhase i op s).2).2.afterAborts = _
      rw [ih4, h3]
      show s.afterAborts ++ abortContsOf i op ++ flatOver rest abortContsOf = _
      rw [List.append_assoc]
      rfl

/-! ## C7: `equals` and the reference-equality short-circuit -/

/-- A persisted instance with a pending modification. -/
def modifiedSelf : MInst :=
  ⟨0, "person", some "aaaa", some "etag1", ["f"]⟩

/-- C7 counterexample: a persisted instance with a non-empty __modified
list IS equals to itself — the `this === obj` short-circuit returns true
before the modification check — contradicting the claim that such an
instance is never equals to anything. -/
theorem equals_modified_self_counterexample :
    equalsM modifiedSelf modifiedSelf = true ∧
    isM modifiedSelf modifiedSelf = true ∧
    hasModifications modifiedSelf = true := by
  refine ⟨by decide, by decide, by decide⟩

/-- C7 amended: x.equals(y) is true iff x and y are the same object
reference, or x.is(y) holds, both share the same _etag, and neither has
pending modifications.  (Via the reference short-circuit, a modified
instance is still equals to itself.) -/
theorem hasModifications_false_iff (a : MInst) :
    hasModifications a = false ↔ a.modified = [] := by
  simp [hasModifications, List.length_eq_zero]

theorem equals_characterisation (a b : MInst) :
    equalsM a b = true ↔
      (a.ref = b.ref ∨
        (isM a b = true ∧ a.etag = b.etag ∧ a.modified = [] ∧ b.modified = [])) := by
  by_cases h : a.ref = b.ref
  · rw [equalsM, if_pos (by simp [h])]
    simp [h]
  · have hb : (a.ref == b.ref) = false := by simpa using h
    rw [equalsM, if_neg (by simp [hb])]
    simp only [Bool.and_eq_true, Bool.not_eq_true', beq_iff_eq,
      hasModifications_false_iff]
    constructor
    · rintro ⟨⟨⟨his, hetag⟩, hma⟩, hmb⟩
      exact Or.inr ⟨his, hetag, hma, hmb⟩
    · rintro (hr | ⟨his, hetag, hma, hmb⟩)
      · exact absurd hr h
      · exact ⟨⟨⟨his, hetag⟩, hma⟩, hmb⟩

/-! ## C8: `isModified(path)` matches descendants, not ancestors -/

/-- C8 counterexample: with __modified = ["obj"] (the whole subtree
"obj" was set), isModified("obj.deep") returns false, though the claim
— the exact path or an ancestor-prefix of it being recorded — demands
true. -/
theorem isModified_ancestor_counterexample :
    isModifiedPath ["obj"] "obj.deep" = false ∧
    specAncestorIsModified ["obj"] "obj.deep" = true := by
  refine ⟨by decide, by decide⟩

/-- C8 amended: isModified(p) is true iff p itself is recorded in
__modified or some recorded entry is a strict descendant of p (an entry
beginning with p followed by a dot); a recorded strict ancestor of p
does not make it true.  With no argument, isModified() is true iff
__modified is non-empty. -/
theorem isModified_characterisation (modified : List String) (path : String) :
    (isModifiedPath modified path = true ↔
      path ∈ modified ∨ ∃ v ∈ modified, jsStartsWith v (path ++ ".") = true) ∧
    (isModifiedNoArg modified = true ↔ modified ≠ []) := by
  constructor
  · rw [isModifiedPath, List.any_eq_true]
    constructor
    · rintro ⟨v, hv, hor⟩
      rcases Bool.or_eq_true_iff.mp hor with heq | hpre
      · exact Or.inl ((beq_iff_eq.mp heq) ▸ hv)
      · exact Or.inr ⟨v, hv, hpre⟩
    · rintro (hmem | ⟨v, hv, hpre⟩)
      · exact ⟨path, hmem, by simp⟩
      · exact ⟨v, hv, by simp [hpre]⟩
  · simp [isModifiedNoArg, bne_iff_ne, List.length_eq_zero]

end Cosa
